import Mathlib

/-!
Verification development for the `pilot` task runner (`src/main.rs`).

The Rust source is shallowly embedded as executable Lean definitions:

* strings are represented as `List Char`; Rust byte indices into UTF-8
  strings are modelled exactly, via `Char.utf8Size`, so that char-boundary
  checks (`str::get`) and char-boundary panics (byte slicing, `String::remove`)
  are reproduced faithfully;
* fallible operations return `Option` (`none` models a Rust panic) or
  `Except` (`Except.error` models `eprintln!` + `exit(1)` through `OrMsg`);
* the process-wide atomics `INDEX : AtomicU32` and `PADDING : AtomicUsize`
  and the console are modelled as an explicit `World` record threaded
  through the functions, and `u32` arithmetic is `Nat` arithmetic mod `2^32`;
* the behaviour of a spawned child process (spawn success, availability of
  the pty stream, captured output lines, wait outcome) is an oracle record
  `ChildBehavior` supplied per command, and the wall clock is an oracle
  string, since neither is computed by the program itself;
* the thread-per-branch execution of a `parallel` step is modelled by the
  linearization in which the branch threads happen to run to completion in
  spawn order (an admissible OS schedule, since the program performs no
  synchronization between branches); each branch receives a by-value copy
  of `raw` exactly as the Rust closure captures `raw_clone`.
-/

set_option maxHeartbeats 1000000

namespace Pilot

/-! ### The sanitizer (`sanitize_string`, main.rs lines 64-111) -/

/-- The ASCII escape character that `do_remove` looks for
(`'\u{1b}'`, main.rs line 66). -/
def escChar : Char := '\x1b'

/-- Characters treated by the lookahead in `do_remove` as part of an
in-progress control sequence (main.rs line 77): `'['`, `';'` and ASCII
digits. -/
def isParamC (c : Char) : Bool := c == '[' || c == ';' || c.isDigit

/-- UTF-8 byte length of a string represented as a list of characters;
Rust `String::len`. -/
def byteLen (l : List Char) : Nat := (l.map Char.utf8Size).sum

@[simp]
theorem byteLen_nil : byteLen [] = 0 := rfl

@[simp]
theorem byteLen_cons (c : Char) (cs : List Char) :
    byteLen (c :: cs) = c.utf8Size + byteLen cs := by
  simp [byteLen]

@[simp]
theorem byteLen_append (a b : List Char) :
    byteLen (a ++ b) = byteLen a + byteLen b := by
  simp [byteLen]

/-- Rust `line.get(i..(i + 1))` followed by taking the single character
(main.rs lines 102-104): `some c` exactly when byte index `i` starts a
one-byte character `c` (both `i` and `i + 1` are char boundaries and
`i + 1 ≤ len`); `none` when `i` is out of range or not on a boundary of a
one-byte character, which makes the scanning loop stop. -/
def getAscii : List Char → Nat → Option Char
  | [], _ => none
  | c :: _, 0 => if c.utf8Size = 1 then some c else none
  | c :: cs, i + 1 => if c.utf8Size ≤ i + 1 then getAscii cs (i + 1 - c.utf8Size) else none

/-- Outcome of the `while let Some(char) = iter.next()` lookahead inside
`do_remove` (main.rs lines 72-92): the sequence is a coloring sequence
(first interesting character is `'m'`), or a terminator was found with the
final value of `removals`, or the iterator was exhausted with the final
value of `removals`. -/
inductive LookResult where
  | sgr : LookResult
  | term : Nat → LookResult
  | exhausted : Nat → LookResult
deriving DecidableEq

/-- The lookahead loop of `do_remove` (main.rs lines 72-92), carrying the
running value of `removals` (initially 1, counting the escape character
itself): a `'m'` aborts with no removal; a character other than `'['`,
`';'` and ASCII digits is the terminator and bumps `removals` once more;
any other character bumps `removals` and continues. -/
def lookahead : List Char → Nat → LookResult
  | [], r => .exhausted r
  | c :: cs, r =>
    if c = 'm' then .sgr
    else if isParamC c then lookahead cs (r + 1)
    else .term (r + 1)

/-- Rust byte slicing `line[b..line.len()]` (main.rs line 81): drop the
first `b` bytes; `none` models the char-boundary panic when `b` falls
strictly inside a multi-byte character (and the out-of-bounds panic when
`b` exceeds the byte length). -/
def byteDrop : List Char → Nat → Option (List Char)
  | l, 0 => some l
  | [], _ + 1 => none
  | c :: cs, b + 1 => if c.utf8Size ≤ b + 1 then byteDrop cs (b + 1 - c.utf8Size) else none

/-- Rust `String::remove(i)` with a byte index (main.rs line 95): remove
the character starting at byte `i`; `none` models the panic when `i` is
out of bounds or not a char boundary. -/
def removeAt : List Char → Nat → Option (List Char)
  | [], _ => none
  | _ :: cs, 0 => some cs
  | c :: cs, i + 1 =>
    if c.utf8Size ≤ i + 1 then (removeAt cs (i + 1 - c.utf8Size)).map (c :: ·) else none

/-- The `for _ in 0..removals { line.remove(i); }` loop of `do_remove`
(main.rs lines 94-96). -/
def removeN : List Char → Nat → Nat → Option (List Char)
  | l, _, 0 => some l
  | l, i, n + 1 =>
    match removeAt l i with
    | none => none
    | some l' => removeN l' i n

/-- The inner helper `do_remove(i, char, line)` of `sanitize_string`
(main.rs lines 65-99). Returns the pair of the Rust return value and the
new contents of the `&mut` line; `none` models a panic. A character other
than ESC returns `false` untouched; otherwise the lookahead over
`line.chars().skip(i + 1)` decides: an SGR sequence returns `false`
untouched; a terminator causes the byte slice `line[(i + removals)..]`
(possibly panicking) and returns `true`; an exhausted lookahead removes
`removals` characters at byte index `i` and returns `removals > 0`. -/
def do_remove (i : Nat) (c : Char) (line : List Char) : Option (Bool × List Char) :=
  if c ≠ escChar then some (false, line)
  else
    match lookahead (line.drop (i + 1)) 1 with
    | .sgr => some (false, line)
    | .term r => (byteDrop line (i + r)).map (fun l' => (true, l'))
    | .exhausted r =>
      match removeN line i r with
      | none => none
      | some l' => some (decide (0 < r), l')

theorem lookahead_term_gt {l : List Char} {r r' : Nat}
    (h : lookahead l r = .term r') : r < r' := by
  induction l generalizing r with
  | nil => simp [lookahead] at h
  | cons c cs ih =>
    simp only [lookahead] at h
    split at h
    · exact absurd h (by simp)
    · split at h
      · exact Nat.lt_of_succ_lt (ih h)
      · cases h
        exact Nat.lt_succ_self r

theorem byteDrop_byteLen {l l' : List Char} {b : Nat}
    (h : byteDrop l b = some l') : byteLen l' + b = byteLen l := by
  induction l generalizing b with
  | nil =>
    cases b with
    | zero => cases h; simp
    | succ b => simp [byteDrop] at h
  | cons c cs ih =>
    cases b with
    | zero => cases h; simp
    | succ b =>
      simp only [byteDrop] at h
      split at h
      · have := ih h
        simp only [byteLen_cons]
        omega
      · exact absurd h (by simp)

theorem removeAt_lt {l l' : List Char} {i : Nat}
    (h : removeAt l i = some l') : byteLen l' < byteLen l := by
  induction l generalizing i l' with
  | nil => simp [removeAt] at h
  | cons c cs ih =>
    cases i with
    | zero =>
      cases h
      simp only [byteLen_cons]
      have := c.utf8Size_pos
      omega
    | succ i =>
      simp only [removeAt] at h
      split at h
      · match h2 : removeAt cs (i + 1 - c.utf8Size) with
        | none => rw [h2] at h; simp at h
        | some l'' =>
          rw [h2] at h
          simp only [Option.map_some'] at h
          cases h
          have := ih h2
          simp only [byteLen_cons]
          omega
      · exact absurd h (by simp)

theorem removeN_le {l l' : List Char} {i n : Nat}
    (h : removeN l i n = some l') : byteLen l' ≤ byteLen l := by
  induction n generalizing l with
  | zero => cases h; exact Nat.le_refl _
  | succ n ih =>
    simp only [removeN] at h
    match h2 : removeAt l i with
    | none => rw [h2] at h; simp at h
    | some l'' =>
      rw [h2] at h
      exact Nat.le_of_lt (Nat.lt_of_le_of_lt (ih h) (removeAt_lt h2))

theorem removeN_lt {l l' : List Char} {i n : Nat} (hn : 0 < n)
    (h : removeN l i n = some l') : byteLen l' < byteLen l := by
  cases n with
  | zero => exact absurd hn (by simp)
  | succ n =>
    simp only [removeN] at h
    match h2 : removeAt l i with
    | none => rw [h2] at h; simp at h
    | some l'' =>
      rw [h2] at h
      exact Nat.lt_of_le_of_lt (removeN_le h) (removeAt_lt h2)

theorem getAscii_lt {l : List Char} {i : Nat} {c : Char}
    (h : getAscii l i = some c) : i < byteLen l := by
  induction l generalizing i with
  | nil => simp [getAscii] at h
  | cons d cs ih =>
    cases i with
    | zero =>
      simp only [byteLen_cons]
      have := d.utf8Size_pos
      omega
    | succ i =>
      simp only [getAscii] at h
      split at h
      · have := ih h
        simp only [byteLen_cons]
        omega
      · exact absurd h (by simp)

theorem do_remove_false {i : Nat} {c : Char} {line l' : List Char}
    (h : do_remove i c line = some (false, l')) : l' = line := by
  unfold do_remove at h
  split at h
  · cases h; rfl
  · split at h
    · cases h; rfl
    · rename_i r hr
      match h2 : byteDrop line (i + r) with
      | none => rw [h2] at h; simp at h
      | some l'' => rw [h2] at h; simp at h
    · rename_i r hr
      match h2 : removeN line i r with
      | none => rw [h2] at h; simp at h
      | some l'' =>
        rw [h2] at h
        simp only [Option.some.injEq, Prod.mk.injEq] at h
        cases r with
        | zero =>
          cases h2
          exact h.2.symm
        | succ r => simp at h

theorem do_remove_true {i : Nat} {c : Char} {line l' : List Char}
    (h : do_remove i c line = some (true, l')) : byteLen l' < byteLen line := by
  unfold do_remove at h
  split at h
  · simp at h
  · split at h
    · simp at h
    · rename_i r hr
      match h2 : byteDrop line (i + r) with
      | none => rw [h2] at h; simp at h
      | some l'' =>
        rw [h2] at h
        simp only [Option.map_some', Option.some.injEq, Prod.mk.injEq] at h
        cases h.2
        have hb := byteDrop_byteLen h2
        have := lookahead_term_gt hr
        omega
    · rename_i r hr
      match h2 : removeN line i r with
      | none => rw [h2] at h; simp at h
      | some l'' =>
        rw [h2] at h
        simp only [Option.some.injEq, Prod.mk.injEq] at h
        cases h.2
        cases r with
        | zero => simp at h
        | succ r => exact removeN_lt (Nat.succ_pos r) h2

/-- The scanning loop of `sanitize_string` (main.rs lines 101-109): at
byte index `i`, if `line.get(i..(i + 1))` yields a character, run
`do_remove`; on a removal restart from index 0 (the content shifted), on a
panic abort, otherwise advance one byte; when `get` yields nothing (end of
line, or a byte that is not the start of a one-byte character) stop and
return the line. -/
def sanitizeLoop (line : List Char) (i : Nat) : Option (List Char) :=
  match h : getAscii line i with
  | none => some line
  | some c =>
    match h2 : do_remove i c line with
    | none => none
    | some (true, line') => sanitizeLoop line' 0
    | some (false, line') => sanitizeLoop line' (i + 1)
termination_by (byteLen line, byteLen line - i)
decreasing_by
  · exact Prod.Lex.left _ _ (do_remove_true h2)
  · rw [do_remove_false h2]
    exact Prod.Lex.right (byteLen line)
      (by have := getAscii_lt (l := line) (i := i) h; omega)

/-- `sanitize_string` (main.rs lines 64-111): scan the line from byte 0;
`none` models a panic inside the loop. -/
def sanitize_string (line : List Char) : Option (List Char) :=
  sanitizeLoop line 0

/-! ### The color/alignment registry (main.rs lines 61-62) -/

/-- Modulus of Rust `u32` arithmetic, for the `AtomicU32` counter. -/
def u32Mod : Nat := 2 ^ 32

/-- State of the shared color counter: the value of `INDEX : AtomicU32`
(main.rs line 61) together with, for each currently active shell step
(identified by an arbitrary `Nat` tag), the counter value it read when it
started — the value its color is derived from. -/
structure CState where
  counter : Nat
  assigned : List (Nat × Nat)
deriving DecidableEq

/-- The registry at process start: `INDEX` is initialized to 1
(main.rs line 61) and no shell step is active. -/
def initialCState : CState := ⟨1, []⟩

/-- One counter event: a shell step starts (`INDEX.fetch_add(1)`,
main.rs line 139 — the step keeps the returned old value) or ends
(`INDEX.fetch_sub(1)`, main.rs line 192). -/
inductive Event where
  | start : Nat → Event
  | stop : Nat → Event
deriving DecidableEq

/-- Effect of one event on the counter state, with `u32` wrap-around. -/
def stepEv (s : CState) : Event → CState
  | .start id => ⟨(s.counter + 1) % u32Mod, (id, s.counter) :: s.assigned⟩
  | .stop id => ⟨(s.counter + (u32Mod - 1)) % u32Mod,
      s.assigned.filter (fun p => p.1 != id)⟩

/-- Run a sequence of interleaved start/end events. -/
def runEvents (s : CState) : List Event → CState
  | [] => s
  | e :: es => runEvents (stepEv s e) es

/-- The ANSI foreground color code a shell step derives from the counter
value it read: `31 + current_index % 7` (main.rs line 140). -/
def colorOf (v : Nat) : Nat := 31 + v % 7

/-- The counter values handed out by a run of consecutive starts beginning
at counter value `c`: the `j`-th starting step reads `c + j`. -/
def startVals (c : Nat) : List Nat → List (Nat × Nat)
  | [] => []
  | id :: ids => (id, c) :: startVals (c + 1) ids

/-! ### The world of the shell runner: atomics and console -/

/-- The process-wide mutable state touched by the runner: the color
counter `INDEX`, the alignment watermark `PADDING` (main.rs lines 61-62)
and the lines printed to standard output. -/
structure World where
  index : Nat
  padding : Nat
  out : List String
deriving DecidableEq

/-- `println!`: append one line to standard output. -/
def println (w : World) (s : String) : World :=
  { w with out := w.out ++ [s] }

/-- Oracle describing the child process spawned for one shell command:
whether the spawn succeeds, whether a readable pty stream can be obtained,
the captured output lines, and the wait outcome (`some code` — the child
exited with that status — or `none` — waiting failed). The program
computes none of these; they are inputs of the embedding. -/
structure ChildBehavior where
  spawnOk : Bool
  ptyOk : Bool
  lines : List (List Char)
  waitResult : Option Nat
deriving DecidableEq

/-- The `for_each` over captured lines in `run_shell` (main.rs lines
167-185): sanitize each line (a panic aborts, modelled as `Except.error`
carrying the world printed so far) and print it as
`{time}{color}{task}:{reset}{padding} {line}`, the padding prefix being
`PADDING.load() - this_padding` spaces (saturating). -/
def printLines (color taskName timePfx : String) (thisPadding : Nat) :
    List (List Char) → World → Except World World
  | [], w => Except.ok w
  | l :: ls, w =>
    match sanitize_string l with
    | none => Except.error w
    | some s =>
      let padding := w.padding
      let paddingPfx := String.mk (List.replicate (padding - thisPadding) ' ')
      printLines color taskName timePfx thisPadding ls
        (println w (timePfx ++ color ++ taskName ++ ":\x1b[0m" ++ paddingPfx
          ++ " " ++ String.mk s))

/-- `run_shell` (main.rs lines 130-193). Reads and increments `INDEX`
(keeping the old value for the color), spawns the command (raw: inherited
or null streams; non-raw: a pty), in the non-raw non-quiet case updates
`PADDING` with `task_name.len() + 1` and prints every sanitized captured
line, waits for the child (`none` wait outcome is fatal, any exit status
is not), and decrements `INDEX`. `Except.error` models `exit(1)` with the
message printed to standard error. -/
def run_shell (command taskName : String) (quietTasks : List String)
    (raw timestamp : Bool) (nowStr : String) (beh : ChildBehavior)
    (w : World) : Except (World × String) World :=
  let currentIndex := w.index
  let w1 : World := { w with index := (w.index + 1) % u32Mod }
  let color := "\x1b[0;" ++ toString (31 + currentIndex % 7) ++ "m"
  let quiet := quietTasks.contains taskName
  let _ := command
  if raw then
    if beh.spawnOk then
      match beh.waitResult with
      | some _ => Except.ok { w1 with index := (w1.index + (u32Mod - 1)) % u32Mod }
      | none => Except.error (w1, "Task " ++ taskName ++ " failed")
    else Except.error (w1, "Failed to run task " ++ taskName)
  else
    if beh.spawnOk then
      if quiet then
        match beh.waitResult with
        | some _ => Except.ok { w1 with index := (w1.index + (u32Mod - 1)) % u32Mod }
        | none => Except.error (w1, "Task " ++ taskName ++ " failed")
      else
        let thisPadding := taskName.utf8ByteSize + 1
        let w2 : World := { w1 with padding := max w1.padding thisPadding }
        if beh.ptyOk then
          match printLines color taskName
              (if timestamp then nowStr ++ " " else "") thisPadding beh.lines w2 with
          | Except.error wp =>
            Except.error (wp, "panicked while sanitizing captured output")
          | Except.ok w3 =>
            match beh.waitResult with
            | some _ =>
              Except.ok { w3 with index := (w3.index + (u32Mod - 1)) % u32Mod }
            | none => Except.error (w3, "Task " ++ taskName ++ " failed")
        else Except.error (w2, "Could not get pty output")
    else Except.error (w1, "Failed to run task " ++ taskName)

/-! ### The step model and the task executor (main.rs lines 195-330) -/

/-- One step of a task: the in-memory form of the single key-value pair of
each entry of a task's step list (`shell`, `task`, `parallel`, `raw`,
`description`, or any other key — the `_ => "Unkown token"` arm of
`run_task`). -/
inductive Step where
  | shell : String → Step
  | task : String → Step
  | parallel : List Step → Step
  | raw : Bool → Step
  | description : String → Step
  | unknown : String → Step

/-- The parsed task file: an ordered association of task name to step
list. -/
abbrev TaskFile := List (String × List Step)

mutual

/-- `run_task` (main.rs lines 195-267): dispatch one step. The result
carries the final world and the final value of the `&mut raw` flag
(`none` is fuel exhaustion of the embedding, needed because a task can
reference itself). A shell step passes `raw.clone()` to the shell runner;
a task step recurses into `cli_run_task` with breadcrumb
`prefix + " > " + sub` and `raw.clone()`; a parallel step runs every
branch and yields the original `raw` (each branch worked on its own
`raw_clone`); a raw step sets the flag; a description step is a no-op;
any other key is the fatal `Unkown token`. -/
def run_task (fuel : Nat) (tf : TaskFile) (s : Step) (taskPfx taskName : String)
    (quietTasks : List String) (r : Bool) (timestamp : Bool) (nowStr : String)
    (env : String → ChildBehavior) (w : World) :
    Option (Except (World × String) (World × Bool)) :=
  match fuel with
  | 0 => none
  | fuel + 1 =>
    match s with
    | .shell cmd =>
      match run_shell cmd taskName quietTasks r timestamp nowStr (env cmd) w with
      | .ok w' => some (.ok (w', r))
      | .error e => some (.error e)
    | .task sub =>
      match cli_run_task fuel tf sub (taskPfx ++ " > " ++ sub) quietTasks r
          timestamp nowStr env w with
      | none => none
      | some (.ok w') => some (.ok (w', r))
      | some (.error e) => some (.error e)
    | .parallel bs =>
      match runParallel fuel tf bs taskPfx taskName quietTasks r timestamp
          nowStr env w with
      | none => none
      | some (.ok w') => some (.ok (w', r))
      | some (.error e) => some (.error e)
    | .raw v => some (.ok (w, v))
    | .description _ => some (.ok (w, r))
    | .unknown _ => some (.error (w, "Unkown token"))

/-- The `"parallel"` arm of `run_task` (main.rs lines 223-257): one thread
per branch, then a join of all of them. The embedding linearizes the
branch threads in spawn order (an admissible schedule). Each branch
receives the value `r` as its `raw_clone`, and the branch's final raw
value is discarded, exactly as the Rust thread's `raw_clone` is dropped; a
branch's fatal error (`exit(1)`) terminates the whole process, so the
remaining branches contribute nothing. -/
def runParallel (fuel : Nat) (tf : TaskFile) (bs : List Step)
    (taskPfx taskName : String) (quietTasks : List String) (r : Bool)
    (timestamp : Bool) (nowStr : String) (env : String → ChildBehavior)
    (w : World) : Option (Except (World × String) World) :=
  match fuel with
  | 0 => none
  | fuel + 1 =>
    match bs with
    | [] => some (.ok w)
    | b :: rest =>
      match run_task fuel tf b taskPfx taskName quietTasks r timestamp
          nowStr env w with
      | none => none
      | some (.error e) => some (.error e)
      | some (.ok (w', _)) =>
        runParallel fuel tf rest taskPfx taskName quietTasks r timestamp
          nowStr env w'

/-- The step loop of `cli_run_task` (main.rs lines 296-312): run the steps
in order, threading the `&mut raw` flag from one step to the next. -/
def runSteps (fuel : Nat) (tf : TaskFile) (ss : List Step)
    (taskPfx taskName : String) (quietTasks : List String) (r : Bool)
    (timestamp : Bool) (nowStr : String) (env : String → ChildBehavior)
    (w : World) : Option (Except (World × String) (World × Bool)) :=
  match fuel with
  | 0 => none
  | fuel + 1 =>
    match ss with
    | [] => some (.ok (w, r))
    | s :: rest =>
      match run_task fuel tf s taskPfx taskName quietTasks r timestamp
          nowStr env w with
      | none => none
      | some (.error e) => some (.error e)
      | some (.ok (w', r')) =>
        runSteps fuel tf rest taskPfx taskName quietTasks r' timestamp
          nowStr env w'

/-- `cli_run_task` (main.rs lines 269-330): print the entry trace
`> breadcrumb` (timestamped when enabled), look the task up by name
(zero matches and more than one match are fatal), run its steps with a
by-value `raw`, and print the exit trace `finished breadcrumb`. -/
def cli_run_task (fuel : Nat) (tf : TaskFile) (task taskPfx : String)
    (quietTasks : List String) (r : Bool) (timestamp : Bool) (nowStr : String)
    (env : String → ChildBehavior) (w : World) :
    Option (Except (World × String) World) :=
  match fuel with
  | 0 => none
  | fuel + 1 =>
    let w := println w (if timestamp then nowStr ++ " > " ++ taskPfx
      else "> " ++ taskPfx)
    match tf.filter (fun p => p.1 == task) with
    | [] => some (.error (w, "Task " ++ task ++ " not found in Pilotfile"))
    | [t] =>
      match runSteps fuel tf t.2 taskPfx task quietTasks r timestamp nowStr
          env w with
      | none => none
      | some (.error e) => some (.error e)
      | some (.ok (w', _)) =>
        some (.ok (println w' (if timestamp then nowStr ++ " finished " ++ taskPfx
          else "finished " ++ taskPfx)))
    | _ => some (.error (w, "Duplicate task " ++ task))

end

/-- The effect a single step has on the `&mut raw` flag of the enclosing
sequential step list: a `raw` step replaces it, every other step leaves it
unchanged. -/
def rawAfter (s : Step) (r : Bool) : Bool :=
  match s with
  | .raw v => v
  | _ => r

/-- The concrete task file of the C1 counterexample: `main` runs three
branches in parallel, the second referencing a task that does not exist. -/
def tfC1 : TaskFile :=
  [("ok1", []), ("ok2", []),
   ("main", [Step.parallel [Step.task "ok1", Step.task "nope", Step.task "ok2"]])]


/-! ### Unfolding lemmas for the scanning loop -/

theorem sanitizeLoop_end {l : List Char} {i : Nat} (h : getAscii l i = none) :
    sanitizeLoop l i = some l := by
  unfold sanitizeLoop
  split
  · rfl
  · rename_i c hc
    rw [h] at hc
    cases hc

theorem sanitizeLoop_panic {l : List Char} {i : Nat} {c : Char}
    (h : getAscii l i = some c) (h2 : do_remove i c l = none) :
    sanitizeLoop l i = none := by
  unfold sanitizeLoop
  split
  · rename_i hc
    rw [h] at hc
    cases hc
  · rename_i d hd
    rw [h] at hd
    cases hd
    split
    · rfl
    · rename_i l'' hr
      rw [h2] at hr
      cases hr
    · rename_i l'' hr
      rw [h2] at hr
      cases hr

theorem sanitizeLoop_true {l l' : List Char} {i : Nat} {c : Char}
    (h : getAscii l i = some c) (h2 : do_remove i c l = some (true, l')) :
    sanitizeLoop l i = sanitizeLoop l' 0 := by
  unfold sanitizeLoop
  split
  · rename_i hc
    rw [h] at hc
    cases hc
  · rename_i d hd
    rw [h] at hd
    cases hd
    split
    · rename_i hr
      rw [h2] at hr
      cases hr
    · rename_i l'' hr
      rw [h2] at hr
      cases hr
      exact sanitizeLoop.eq_def l' 0
    · rename_i l'' hr
      rw [h2] at hr
      cases hr

theorem sanitizeLoop_false {l l' : List Char} {i : Nat} {c : Char}
    (h : getAscii l i = some c) (h2 : do_remove i c l = some (false, l')) :
    sanitizeLoop l i = sanitizeLoop l (i + 1) := by
  unfold sanitizeLoop
  split
  · rename_i hc
    rw [h] at hc
    cases hc
  · rename_i d hd
    rw [h] at hd
    cases hd
    split
    · rename_i hr
      rw [h2] at hr
      cases hr
    · rename_i l'' hr
      rw [h2] at hr
      cases hr
    · rename_i l'' hr
      rw [h2] at hr
      cases hr
      rw [do_remove_false h2]
      exact sanitizeLoop.eq_def l (i + 1)

/-! ### Character-level facts -/

theorem escChar_utf8Size : escChar.utf8Size = 1 := by decide

theorem isDigit_utf8Size {c : Char} (h : c.isDigit = true) : c.utf8Size = 1 := by
  have h9 : c.val ≤ 57 := by
    simp [Char.isDigit] at h
    exact h.2
  have h127 : c.val ≤ 127 := by
    refine UInt32.le_def.mpr (BitVec.le_def.mpr ?_)
    have h3 := BitVec.le_def.mp (UInt32.le_def.mp h9)
    have e : (57 : UInt32).toBitVec.toNat = 57 := by decide
    have e2 : (127 : UInt32).toBitVec.toNat = 127 := by decide
    omega
  unfold Char.utf8Size
  simp [h127]

theorem isParamC_utf8Size {c : Char} (h : isParamC c = true) : c.utf8Size = 1 := by
  simp only [isParamC, Bool.or_eq_true, beq_iff_eq] at h
  rcases h with (h | h) | h
  · rw [h]; decide
  · rw [h]; decide
  · exact isDigit_utf8Size h

theorem isDigit_ne_of_not {c d : Char} (h : c.isDigit = true) (hd : d.isDigit = false) :
    c ≠ d := by
  intro he
  rw [he, hd] at h
  cases h

theorem isParamC_ne_m {c : Char} (h : isParamC c = true) : c ≠ 'm' := by
  simp only [isParamC, Bool.or_eq_true, beq_iff_eq] at h
  rcases h with (h | h) | h
  · rw [h]; decide
  · rw [h]; decide
  · exact isDigit_ne_of_not h (by decide)

theorem isParamC_ne_esc {c : Char} (h : isParamC c = true) : c ≠ escChar := by
  simp only [isParamC, Bool.or_eq_true, beq_iff_eq] at h
  rcases h with (h | h) | h
  · rw [h]; decide
  · rw [h]; decide
  · exact isDigit_ne_of_not h (by decide)

theorem byteLen_eq_length {l : List Char} (h : ∀ c ∈ l, c.utf8Size = 1) :
    byteLen l = l.length := by
  induction l with
  | nil => rfl
  | cons c cs ih =>
    simp only [byteLen_cons, List.length_cons]
    rw [h c (by simp), ih (fun d hd => h d (by simp [hd]))]
    omega

/-! ### The scan over a benign ASCII region -/

theorem getAscii_some_iff {l : List Char} {n : Nat} {c : Char}
    (hall : (l.take n).all (fun c => c.utf8Size == 1) = true) :
    getAscii l n = some c ↔ l.get? n = some c ∧ c.utf8Size = 1 := by
  induction l generalizing n with
  | nil => simp [getAscii]
  | cons d cs ih =>
    cases n with
    | zero =>
      simp only [getAscii, List.get?]
      constructor
      · intro h
        split at h
        · cases h
          exact ⟨rfl, by assumption⟩
        · cases h
      · rintro ⟨h1, h2⟩
        cases h1
        simp [h2]
    | succ n =>
      simp only [List.take_succ_cons, List.all_cons, Bool.and_eq_true, beq_iff_eq] at hall
      simp only [getAscii, List.get?]
      rw [if_pos (by omega)]
      rw [hall.1]
      simp only [Nat.add_sub_cancel]
      exact ih hall.2

theorem take_all_succ {l : List Char} {n : Nat} {c : Char}
    (hall : (l.take n).all (fun c => c.utf8Size == 1) = true)
    (hg : l.get? n = some c) (hc : c.utf8Size = 1) :
    (l.take (n + 1)).all (fun c => c.utf8Size == 1) = true := by
  have hg2 : l[n]? = some c := by
    rw [← List.get?_eq_getElem?]
    exact hg
  rw [List.take_succ, hg2]
  simp only [List.all_append, hall, Bool.true_and]
  simp [hc]

/-- If `do_remove` never triggers at any reachable byte position of `l`
(every position that starts a one-byte character either is not an ESC, or
is an ESC whose lookahead reaches the letter `m`), the scan leaves the
line unchanged from any starting position with an all-ASCII prefix. -/
theorem sanitizeLoop_id_aux {l : List Char}
    (H : ∀ n, n < l.length →
      (l.take n).all (fun c => c.utf8Size == 1) = true →
      l.get? n = some escChar →
      lookahead (l.drop (n + 1)) 1 = LookResult.sgr) :
    ∀ k i, byteLen l - i ≤ k →
      (l.take i).all (fun c => c.utf8Size == 1) = true →
      sanitizeLoop l i = some l := by
  intro k
  induction k with
  | zero =>
    intro i hk _
    refine sanitizeLoop_end ?_
    cases hga : getAscii l i with
    | none => rfl
    | some c => exact absurd (getAscii_lt hga) (by omega)
  | succ k ih =>
    intro i hk hall
    cases hga : getAscii l i with
    | none => exact sanitizeLoop_end hga
    | some c =>
      obtain ⟨hg, hc⟩ := (getAscii_some_iff hall).mp hga
      have hlt : i < byteLen l := getAscii_lt hga
      have hall' := take_all_succ hall hg hc
      by_cases hesc : c = escChar
      · subst hesc
        have hsgr := H i (List.get?_eq_some.mp hg).1 hall hg
        have hdr : do_remove i escChar l = some (false, l) := by
          simp [do_remove, hsgr]
        rw [sanitizeLoop_false hga hdr]
        exact ih (i + 1) (by omega) hall'
      · have hdr : do_remove i c l = some (false, l) := by
          simp [do_remove, hesc]
        rw [sanitizeLoop_false hga hdr]
        exact ih (i + 1) (by omega) hall'

/-- A line without the escape character is left unchanged by the scan. -/
theorem sanitize_not_mem {l : List Char} (h : escChar ∉ l) :
    sanitizeLoop l 0 = some l :=
  sanitizeLoop_id_aux
    (fun _ _ _ hg => absurd (List.get?_mem hg) h)
    (byteLen l) 0 (by omega) (by simp)

/-- Scanning from 0 over a prefix of one-byte non-escape characters
advances to the end of the prefix without modifying the line. -/
theorem sanitizeLoop_pre {pre tail : List Char}
    (h1 : ∀ c ∈ pre, c.utf8Size = 1) (h2 : escChar ∉ pre) :
    sanitizeLoop (pre ++ tail) 0 = sanitizeLoop (pre ++ tail) pre.length := by
  suffices haux : ∀ k j, pre.length - j ≤ k → j ≤ pre.length →
      sanitizeLoop (pre ++ tail) j = sanitizeLoop (pre ++ tail) pre.length by
    exact haux pre.length 0 (by omega) (by omega)
  intro k
  induction k with
  | zero =>
    intro j hk hj
    have : j = pre.length := by omega
    rw [this]
  | succ k ih =>
    intro j hk hj
    rcases Nat.eq_or_lt_of_le hj with he | hlt
    · rw [he]
    · have hgp : (pre ++ tail).get? j = pre.get? j := List.get?_append hlt
      have hcg : pre.get? j = some (pre.get ⟨j, hlt⟩) := List.get?_eq_get hlt
      have hcm : pre.get ⟨j, hlt⟩ ∈ pre := List.get_mem pre j hlt
      have hsz : (pre.get ⟨j, hlt⟩).utf8Size = 1 := h1 _ hcm
      have hne : pre.get ⟨j, hlt⟩ ≠ escChar := fun he => h2 (he ▸ hcm)
      have hallj : ((pre ++ tail).take j).all (fun c => c.utf8Size == 1) = true := by
        rw [List.take_append_eq_append_take]
        have h0 : j - pre.length = 0 := by omega
        rw [h0, List.take_zero, List.append_nil]
        refine List.all_eq_true.mpr ?_
        intro a ha
        simp only [beq_iff_eq]
        exact h1 a (List.take_subset _ _ ha)
      have hga : getAscii (pre ++ tail) j = some (pre.get ⟨j, hlt⟩) :=
        (getAscii_some_iff hallj).mpr ⟨by rw [hgp, hcg], hsz⟩
      have hdr : do_remove j (pre.get ⟨j, hlt⟩) (pre ++ tail) =
          some (false, pre ++ tail) := by
        unfold do_remove
        rw [if_pos hne]
      rw [sanitizeLoop_false hga hdr]
      exact ih (j + 1) (by omega) (by omega)

/-! ### Behaviour of the lookahead and of the removal primitives on
structured sequences -/

theorem lookahead_params {p rest : List Char} {r : Nat}
    (h : ∀ c ∈ p, isParamC c = true) :
    lookahead (p ++ rest) r = lookahead rest (r + p.length) := by
  induction p generalizing r with
  | nil => simp [lookahead]
  | cons c p' ih =>
    have hc := h c (by simp)
    have ih' := ih (r := r + 1) (fun d hd => h d (by simp [hd]))
    simp only [List.cons_append, lookahead]
    rw [if_neg (isParamC_ne_m hc), if_pos hc,
      show p'.append rest = p' ++ rest from rfl, ih']
    congr 1
    simp only [List.length_cons]
    omega

theorem byteDrop_append (a b : List Char) :
    byteDrop (a ++ b) (byteLen a) = some b := by
  induction a with
  | nil => simp [byteLen, byteDrop]
  | cons c a' ih =>
    have hpos := c.utf8Size_pos
    obtain ⟨m, hm⟩ : ∃ m, c.utf8Size + byteLen a' = m + 1 :=
      ⟨c.utf8Size + byteLen a' - 1, by omega⟩
    simp only [byteLen_cons, List.cons_append, hm, byteDrop]
    rw [if_pos (by omega), show m + 1 - c.utf8Size = byteLen a' from by omega]
    exact ih

theorem removeAt_append (a : List Char) (c : Char) (b : List Char) :
    removeAt (a ++ c :: b) (byteLen a) = some (a ++ b) := by
  induction a with
  | nil => simp [byteLen, removeAt]
  | cons d a' ih =>
    have hpos := d.utf8Size_pos
    obtain ⟨m, hm⟩ : ∃ m, d.utf8Size + byteLen a' = m + 1 :=
      ⟨d.utf8Size + byteLen a' - 1, by omega⟩
    simp only [byteLen_cons, List.cons_append, hm, removeAt]
    rw [if_pos (by omega), show m + 1 - d.utf8Size = byteLen a' from by omega, ih]
    rfl

theorem removeN_append (b a : List Char) :
    removeN (a ++ b) (byteLen a) b.length = some a := by
  induction b generalizing a with
  | nil => simp [removeN]
  | cons c b' ih =>
    simp only [List.length_cons, removeN, removeAt_append]
    exact ih a

theorem do_remove_term_eq {i r : Nat} {line l' : List Char}
    (hlook : lookahead (line.drop (i + 1)) 1 = LookResult.term r)
    (hbd : byteDrop line (i + r) = some l') :
    do_remove i escChar line = some (true, l') := by
  simp [do_remove, hlook, hbd]

theorem do_remove_exhausted_eq {i r : Nat} {line l' : List Char}
    (hlook : lookahead (line.drop (i + 1)) 1 = LookResult.exhausted r)
    (hr : 0 < r) (hrm : removeN line i r = some l') :
    do_remove i escChar line = some (true, l') := by
  simp [do_remove, hlook, hrm, hr]

/-! ### Claim theorems about the sanitizer -/

/-- C3: the sanitizer maps the line `"\x1b[2K\x1b[0GHello"` (ESC `[2K`
then ESC `[0G` then `Hello`) to exactly `"Hello"`; and in general a
non-SGR CSI sequence — an ESC followed by parameter characters and then a
one-byte terminator that is neither `'m'` nor a parameter character —
causes the entire prefix of the line through and including the terminator
to be deleted, with scanning restarting at position 0 of the shortened
line (so the result is the result of sanitizing the remainder). -/
theorem C3_non_sgr_clears_line :
    sanitize_string ("\x1b[2K\x1b[0GHello".toList) = some ("Hello".toList)
    ∧ ∀ (pre params rest : List Char) (t : Char),
      (∀ c ∈ pre, c.utf8Size = 1) → escChar ∉ pre →
      (∀ c ∈ params, isParamC c = true) →
      t.utf8Size = 1 → isParamC t = false → t ≠ 'm' →
      sanitize_string (pre ++ escChar :: (params ++ t :: rest)) =
        sanitize_string rest := by
  constructor
  · rw [sanitize_string,
      @sanitizeLoop_true _ ("\x1b[0GHello".toList) _ escChar
        (by decide) (by decide),
      @sanitizeLoop_true _ ("Hello".toList) _ escChar
        (by decide) (by decide)]
    exact sanitize_not_mem (by decide)
  · intro pre params rest t hpre hne hparams ht htp htm
    rw [sanitize_string, sanitizeLoop_pre hpre hne]
    have hallp : ((pre ++ escChar :: (params ++ t :: rest)).take pre.length).all
        (fun c => c.utf8Size == 1) = true := by
      rw [List.take_left]
      exact List.all_eq_true.mpr (fun a ha => by simpa using hpre a ha)
    have hg : (pre ++ escChar :: (params ++ t :: rest)).get? pre.length
        = some escChar := by
      rw [List.get?_append_right (Nat.le_refl _)]
      simp
    have hga : getAscii (pre ++ escChar :: (params ++ t :: rest)) pre.length
        = some escChar :=
      (getAscii_some_iff hallp).mpr ⟨hg, escChar_utf8Size⟩
    have hdrop : (pre ++ escChar :: (params ++ t :: rest)).drop (pre.length + 1)
        = params ++ t :: rest := by
      rw [show pre ++ escChar :: (params ++ t :: rest)
          = (pre ++ [escChar]) ++ (params ++ t :: rest) from by simp,
        show pre.length + 1 = (pre ++ [escChar]).length from by simp,
        List.drop_left]
    have hlook : lookahead ((pre ++ escChar :: (params ++ t :: rest)).drop
        (pre.length + 1)) 1 = LookResult.term (1 + params.length + 1) := by
      rw [hdrop, lookahead_params hparams]
      simp only [lookahead]
      rw [if_neg htm, if_neg (by simp [htp])]
    have hall1 : ∀ c ∈ pre ++ escChar :: (params ++ [t]), c.utf8Size = 1 := by
      intro c hc
      simp only [List.mem_append, List.mem_cons, List.mem_singleton,
        List.not_mem_nil, or_false] at hc
      rcases hc with h | h | h | h
      · exact hpre c h
      · rw [h]; exact escChar_utf8Size
      · exact isParamC_utf8Size (hparams c h)
      · rw [h]; exact ht
    have hbl : byteLen (pre ++ escChar :: (params ++ [t]))
        = pre.length + (1 + params.length + 1) := by
      rw [byteLen_eq_length hall1]
      simp
      omega
    have hbd : byteDrop (pre ++ escChar :: (params ++ t :: rest))
        (pre.length + (1 + params.length + 1)) = some rest := by
      rw [show pre ++ escChar :: (params ++ t :: rest)
          = (pre ++ escChar :: (params ++ [t])) ++ rest from by simp,
        ← hbl, byteDrop_append]
    rw [sanitizeLoop_true hga (do_remove_term_eq hlook hbd)]
    rfl

/-- Witness for C3: the general deletion law applied to the concrete line
`"ab" ++ ESC ++ "[2" ++ "K" ++ "xy"`. -/
theorem C3_witness :
    sanitize_string ("ab".toList ++ escChar :: ("[2".toList ++ 'K' :: "xy".toList))
      = sanitize_string ("xy".toList) :=
  C3_non_sgr_clears_line.2 ("ab".toList) ("[2".toList) ("xy".toList) 'K'
    (by decide) (by decide) (by decide) (by decide) (by decide) (by decide)

/-- C4: an input line in which every lookahead started at an escape
character that the scan can reach (a position whose preceding characters
are all one-byte) reaches the SGR terminator `'m'` is returned unchanged
by the sanitizer. -/
theorem C4_sgr_identity (l : List Char)
    (H : ∀ n, n < l.length →
      (l.take n).all (fun c => c.utf8Size == 1) = true →
      l.get? n = some escChar →
      lookahead (l.drop (n + 1)) 1 = LookResult.sgr) :
    sanitize_string l = some l :=
  sanitizeLoop_id_aux H (byteLen l) 0 (by omega) (by simp)

/-- Witness for C4: a concrete line containing only SGR escape sequences
is returned unchanged. -/
theorem C4_witness :
    sanitize_string ("\x1b[0;32mgreen\x1b[0m plain".toList)
      = some ("\x1b[0;32mgreen\x1b[0m plain".toList) :=
  C4_sgr_identity _ (by decide)

/-- Counterexample to C5: on the line `"\x1b[12"`, whose lookahead reaches
the end of the line without finding a terminator, the sanitizer does not
leave the trailing escape sequence in place — it deletes it, returning the
empty line. -/
theorem C5_counterexample :
    sanitize_string ("\x1b[12".toList) = some []
    ∧ sanitize_string ("\x1b[12".toList) ≠ some ("\x1b[12".toList) := by
  have h : sanitize_string ("\x1b[12".toList) = some [] := by
    rw [sanitize_string,
      @sanitizeLoop_true _ [] _ escChar (by decide) (by decide)]
    exact sanitizeLoop_end (by decide)
  refine ⟨h, ?_⟩
  rw [h]
  decide

/-- C5 as amended: when the lookahead for an escape sequence reaches the
end of the line without finding a terminator (every character after the
ESC is `'['`, `';'` or an ASCII digit), the sanitizer deletes the entire
trailing escape sequence — the ESC and every following character — and
returns the prefix of the line before the ESC. -/
theorem C5_amended_trailing_deleted (pre params : List Char)
    (hpre : ∀ c ∈ pre, c.utf8Size = 1) (hne : escChar ∉ pre)
    (hparams : ∀ c ∈ params, isParamC c = true) :
    sanitize_string (pre ++ escChar :: params) = some pre := by
  rw [sanitize_string, sanitizeLoop_pre hpre hne]
  have hallp : ((pre ++ escChar :: params).take pre.length).all
      (fun c => c.utf8Size == 1) = true := by
    rw [List.take_left]
    exact List.all_eq_true.mpr (fun a ha => by simpa using hpre a ha)
  have hg : (pre ++ escChar :: params).get? pre.length = some escChar := by
    rw [List.get?_append_right (Nat.le_refl _)]
    simp
  have hga : getAscii (pre ++ escChar :: params) pre.length = some escChar :=
    (getAscii_some_iff hallp).mpr ⟨hg, escChar_utf8Size⟩
  have hdrop : (pre ++ escChar :: params).drop (pre.length + 1) = params := by
    rw [show pre ++ escChar :: params = (pre ++ [escChar]) ++ params from by simp,
      show pre.length + 1 = (pre ++ [escChar]).length from by simp,
      List.drop_left]
  have hlook : lookahead ((pre ++ escChar :: params).drop (pre.length + 1)) 1
      = LookResult.exhausted (1 + params.length) := by
    rw [hdrop]
    conv_lhs => rw [show params = params ++ ([] : List Char)
      from (List.append_nil params).symm]
    rw [lookahead_params hparams]
    rfl
  have hrm : removeN (pre ++ escChar :: params) pre.length (1 + params.length)
      = some pre := by
    have hb := removeN_append (escChar :: params) pre
    rw [byteLen_eq_length hpre] at hb
    simpa [Nat.add_comm] using hb
  rw [sanitizeLoop_true hga (do_remove_exhausted_eq hlook (by omega) hrm)]
  exact sanitize_not_mem hne

/-- Witness for the amended C5 at a concrete input: `"abc" ++ ESC ++ "[12"`
sanitizes to `"abc"`. -/
theorem C5_amended_witness :
    sanitize_string ("abc".toList ++ escChar :: "[12".toList)
      = some ("abc".toList) :=
  C5_amended_trailing_deleted ("abc".toList) ("[12".toList)
    (by decide) (by decide) (by decide)

/-- C6 (code bug): the sanitizer is not total. On the two-character line
ESC followed by the multi-byte character `'€'`, the lookahead finds the
terminator `'€'` and the code byte-slices the line at `i + removals` where
`removals` counted characters, not bytes; the slice index falls strictly
inside the multi-byte terminator and the Rust program panics (`none` in
this embedding) instead of returning a sanitized line. -/
theorem C6_panic_on_multibyte_terminator :
    sanitize_string [escChar, '€'] = none := by
  rw [sanitize_string]
  exact sanitizeLoop_panic (c := escChar) (by decide) (by decide)

/-! ### Claim theorems about the color counter -/

theorem runEvents_starts {c : Nat} {a : List (Nat × Nat)} {ids : List Nat}
    (h : c + ids.length < u32Mod) :
    runEvents ⟨c, a⟩ (ids.map Event.start)
      = ⟨c + ids.length, (startVals c ids).reverse ++ a⟩ := by
  induction ids generalizing c a with
  | nil => simp [runEvents, startVals]
  | cons id ids ih =>
    simp only [List.length_cons] at h
    simp only [List.map_cons, runEvents, stepEv]
    rw [show (c + 1) % u32Mod = c + 1 from Nat.mod_eq_of_lt (by omega)]
    rw [ih (by omega)]
    simp only [startVals, List.reverse_cons, List.append_assoc,
      List.singleton_append, CState.mk.injEq]
    exact ⟨by simp only [List.length_cons]; omega, trivial⟩

theorem startVals_mem {c v id : Nat} {ids : List Nat}
    (h : (id, v) ∈ startVals c ids) : c ≤ v ∧ v < c + ids.length := by
  induction ids generalizing c with
  | nil => simp [startVals] at h
  | cons id' ids ih =>
    simp only [startVals, List.mem_cons, Prod.mk.injEq] at h
    rcases h with ⟨_, h⟩ | h
    · simp only [List.length_cons]
      omega
    · have := ih h
      simp only [List.length_cons]
      omega

theorem startVals_colors_distinct {c : Nat} {ids : List Nat}
    (hlen : ids.length ≤ 7) :
    (startVals c ids).Pairwise (fun p q => colorOf p.2 ≠ colorOf q.2) := by
  induction ids generalizing c with
  | nil => exact List.Pairwise.nil
  | cons id ids ih =>
    simp only [List.length_cons] at hlen
    refine List.Pairwise.cons ?_ (ih (by omega))
    rintro ⟨qid, qv⟩ hq
    obtain ⟨h1, h2⟩ := startVals_mem hq
    simp only [colorOf]
    intro he
    omega

/-- Counterexample to C7: with interleaved starts and ends — two starts,
the end of the first step, then a third start — only two steps are ever
concurrently active, yet the two active steps read the same counter value
and therefore hold the same color. -/
theorem C7_counterexample :
    (runEvents initialCState
        [Event.start 0, Event.start 1, Event.stop 0, Event.start 2]).assigned.length ≤ 7
    ∧ ¬ (runEvents initialCState
        [Event.start 0, Event.start 1, Event.stop 0, Event.start 2]).assigned.Pairwise
        (fun p q => colorOf p.2 ≠ colorOf q.2) := by
  constructor
  · decide
  · decide

/-- C7 as amended: the shared counter starts at 1, is incremented when a
shell step begins (the step keeping the old value) and decremented when it
ends, and a step's color is `31 + value % 7`. For every run of
consecutive starts — no ends interleaved, the counter not wrapping — of at
most 7 steps, the started steps read consecutive counter values and hold
pairwise distinct colors. (With ends interleaved between starts, two
concurrently active steps can share a color; see the counterexample.) -/
theorem C7_amended_consecutive_starts :
    initialCState.counter = 1
    ∧ (∀ s id, (stepEv s (Event.start id)).counter = (s.counter + 1) % u32Mod
        ∧ (stepEv s (Event.start id)).assigned = (id, s.counter) :: s.assigned)
    ∧ (∀ s id, (stepEv s (Event.stop id)).counter
        = (s.counter + (u32Mod - 1)) % u32Mod)
    ∧ ∀ (c : Nat) (a : List (Nat × Nat)) (ids : List Nat),
        ids.length ≤ 7 → c + ids.length < u32Mod →
        runEvents ⟨c, a⟩ (ids.map Event.start)
          = ⟨c + ids.length, (startVals c ids).reverse ++ a⟩
        ∧ (startVals c ids).Pairwise (fun p q => colorOf p.2 ≠ colorOf q.2) := by
  refine ⟨rfl, fun s id => ⟨rfl, rfl⟩, fun s id => rfl, ?_⟩
  intro c a ids hlen hmod
  exact ⟨runEvents_starts hmod, startVals_colors_distinct hlen⟩

/-- Witness for the amended C7: seven steps starting consecutively from
the initial state read the values 1..7 and hold pairwise distinct
colors. -/
theorem C7_amended_witness :
    runEvents initialCState ((List.range 7).map Event.start)
      = ⟨8, (startVals 1 (List.range 7)).reverse⟩
    ∧ (startVals 1 (List.range 7)).Pairwise
        (fun p q => colorOf p.2 ≠ colorOf q.2) := by
  have h := C7_amended_consecutive_starts.2.2.2 1 [] (List.range 7)
    (by decide) (by norm_num [u32Mod])
  refine ⟨?_, h.2⟩
  have h1 := h.1
  simpa [initialCState] using h1

/-! ### Claim theorems about the shell runner -/

theorem u32Mod_eq : u32Mod = 4294967296 := by norm_num [u32Mod]

theorem inc_dec_32 {n : Nat} (h : n < u32Mod) :
    ((n + 1) % u32Mod + (u32Mod - 1)) % u32Mod = n := by
  rw [u32Mod_eq] at h ⊢
  omega

theorem printLines_ok {color task tp : String} {thisPadding : Nat}
    {lines : List (List Char)}
    (h : ∀ l ∈ lines, sanitize_string l ≠ none) :
    ∀ w, ∃ w', printLines color task tp thisPadding lines w = Except.ok w'
      ∧ w'.index = w.index ∧ w'.padding = w.padding
      ∧ ∃ fl, w'.out = w.out ++ fl ∧ fl.length = lines.length := by
  induction lines with
  | nil =>
    intro w
    exact ⟨w, rfl, rfl, rfl, [], by simp, rfl⟩
  | cons l ls ih =>
    intro w
    match hs : sanitize_string l with
    | none => exact absurd hs (h l (by simp))
    | some s =>
      obtain ⟨w', hw', hi, hp, fl, ho, hlen⟩ :=
        ih (fun x hx => h x (by simp [hx]))
          (println w (tp ++ color ++ task ++ ":\x1b[0m"
            ++ String.mk (List.replicate (w.padding - thisPadding) ' ')
            ++ " " ++ String.mk s))
      refine ⟨w', ?_, ?_, ?_,
        (tp ++ color ++ task ++ ":\x1b[0m"
          ++ String.mk (List.replicate (w.padding - thisPadding) ' ')
          ++ " " ++ String.mk s) :: fl, ?_, ?_⟩
      · simp only [printLines, hs]
        exact hw'
      · exact hi
      · exact hp
      · rw [ho]
        simp [println]
      · simp [hlen]

/-- Unfolded form of `run_shell` in the non-raw, non-quiet case. -/
theorem run_shell_eq_loud {cmd task : String} {qs : List String}
    {ts : Bool} {now : String} {so po : Bool} {ls : List (List Char)}
    {wr : Option Nat} {w : World} (hq : qs.contains task = false) :
    run_shell cmd task qs false ts now ⟨so, po, ls, wr⟩ w
      = if so then
          (if po then
            match printLines ("\x1b[0;" ++ toString (31 + w.index % 7) ++ "m")
                task (if ts then now ++ " " else "") (task.utf8ByteSize + 1) ls
                ⟨(w.index + 1) % u32Mod,
                  max w.padding (task.utf8ByteSize + 1), w.out⟩ with
            | Except.error wp =>
              Except.error (wp, "panicked while sanitizing captured output")
            | Except.ok w3 =>
              match wr with
              | some _ =>
                Except.ok ⟨(w3.index + (u32Mod - 1)) % u32Mod, w3.padding, w3.out⟩
              | none => Except.error (w3, "Task " ++ task ++ " failed")
          else
            Except.error (⟨(w.index + 1) % u32Mod,
              max w.padding (task.utf8ByteSize + 1), w.out⟩,
              "Could not get pty output"))
        else
          Except.error (⟨(w.index + 1) % u32Mod, w.padding, w.out⟩,
            "Failed to run task " ++ task) := by
  cases so <;> cases po <;> simp [run_shell, hq] <;>
    (intro hmem; exact absurd hmem (by simpa using hq))

/-- Unfolded form of `run_shell` in the non-raw, quiet case. -/
theorem run_shell_eq_quiet {cmd task : String} {qs : List String}
    {ts : Bool} {now : String} {so po : Bool} {ls : List (List Char)}
    {wr : Option Nat} {w : World} (hq : qs.contains task = true) :
    run_shell cmd task qs false ts now ⟨so, po, ls, wr⟩ w
      = if so then
          match wr with
          | some _ =>
            Except.ok ⟨((w.index + 1) % u32Mod + (u32Mod - 1)) % u32Mod,
              w.padding, w.out⟩
          | none =>
            Except.error (⟨(w.index + 1) % u32Mod, w.padding, w.out⟩,
              "Task " ++ task ++ " failed")
        else
          Except.error (⟨(w.index + 1) % u32Mod, w.padding, w.out⟩,
            "Failed to run task " ++ task) := by
  cases so <;> simp [run_shell, hq] <;>
    (intro hmem; exact absurd (by simpa using hq) hmem)

/-- Success of the non-raw, non-quiet shell runner, with its effect on the
world: counter restored, padding watermark raised, exactly one printed
line per captured line. -/
theorem run_shell_ok {cmd task : String} {qs : List String} {ts : Bool}
    {now : String} {beh : ChildBehavior} {w : World} {c : Nat}
    (hso : beh.spawnOk = true) (hpo : beh.ptyOk = true)
    (hq : qs.contains task = false)
    (hlines : ∀ l ∈ beh.lines, sanitize_string l ≠ none)
    (hwr : beh.waitResult = some c) :
    ∃ w', run_shell cmd task qs false ts now beh w = Except.ok w'
      ∧ w'.index = ((w.index + 1) % u32Mod + (u32Mod - 1)) % u32Mod
      ∧ w'.padding = max w.padding (task.utf8ByteSize + 1)
      ∧ ∃ fl, w'.out = w.out ++ fl ∧ fl.length = beh.lines.length := by
  obtain ⟨so, po, ls, wr⟩ := beh
  simp only at hso hpo hlines hwr
  subst hso hpo hwr
  obtain ⟨w', hw', hi, hp, fl, ho, hlen⟩ :=
    @printLines_ok ("\x1b[0;" ++ toString (31 + w.index % 7) ++ "m") task
      (if ts then now ++ " " else "") (task.utf8ByteSize + 1) _ hlines
      ⟨(w.index + 1) % u32Mod, max w.padding (task.utf8ByteSize + 1), w.out⟩
  refine ⟨⟨(w'.index + (u32Mod - 1)) % u32Mod, w'.padding, w'.out⟩, ?_, ?_, ?_, fl, ?_, hlen⟩
  · rw [run_shell_eq_loud hq, if_pos rfl, if_pos rfl, hw']
  · simp only at hi
    rw [hi]
  · simp only at hp
    rw [hp]
  · simp only at ho
    rw [ho]

/-- C2: the child's exit status is never treated as failure by the shell
runner. Its entire result is a function of everything except the exit
status value; whenever the spawn succeeds (and, in the captured mode, the
pty stream is readable and no captured line makes the sanitizer panic),
the runner completes normally whatever the exit status is; a spawn failure
is fatal; and a fatal outcome can only come from a spawn failure, an
unreadable pty stream, or a wait failure. -/
theorem C2_exit_status_not_failure :
    (∀ cmd task qs raw ts now (beh : ChildBehavior) w c1 c2,
      run_shell cmd task qs raw ts now { beh with waitResult := some c1 } w
        = run_shell cmd task qs raw ts now { beh with waitResult := some c2 } w)
    ∧ (∀ cmd task qs raw ts now beh w c,
        beh.spawnOk = true →
        (∀ l ∈ beh.lines, sanitize_string l ≠ none) →
        (raw = false → qs.contains task = false → beh.ptyOk = true) →
        beh.waitResult = some c →
        ∃ w', run_shell cmd task qs raw ts now beh w = Except.ok w')
    ∧ (∀ cmd task qs raw ts now beh w,
        beh.spawnOk = false →
        run_shell cmd task qs raw ts now beh w
          = Except.error ({ w with index := (w.index + 1) % u32Mod },
              "Failed to run task " ++ task))
    ∧ (∀ cmd task qs raw ts now beh w e,
        (∀ l ∈ beh.lines, sanitize_string l ≠ none) →
        run_shell cmd task qs raw ts now beh w = Except.error e →
        beh.spawnOk = false
        ∨ (raw = false ∧ qs.contains task = false ∧ beh.ptyOk = false)
        ∨ beh.waitResult = none) := by
  refine ⟨?_, ?_, ?_, ?_⟩
  · intro cmd task qs raw ts now beh w c1 c2
    rfl
  · rintro cmd task qs raw ts now ⟨so, po, ls, wr⟩ w c hso hlines hpty hwr
    simp only at hso hlines hpty hwr
    subst hso hwr
    cases raw with
    | true => exact ⟨_, rfl⟩
    | false =>
      cases hq : qs.contains task with
      | true =>
        exact ⟨⟨((w.index + 1) % u32Mod + (u32Mod - 1)) % u32Mod, w.padding, w.out⟩,
          by rw [run_shell_eq_quiet hq]; rfl⟩
      | false =>
        have hpo := hpty rfl hq
        subst hpo
        obtain ⟨w', hw', -⟩ := @run_shell_ok cmd task qs ts now
          ⟨true, true, ls, some c⟩ w c rfl rfl hq hlines rfl
        exact ⟨w', hw'⟩
  · rintro cmd task qs raw ts now ⟨so, po, ls, wr⟩ w hso
    simp only at hso
    subst hso
    cases raw <;> rfl
  · rintro cmd task qs raw ts now ⟨so, po, ls, wr⟩ w e hlines herr
    simp only at hlines
    cases so with
    | false => exact Or.inl rfl
    | true =>
      cases wr with
      | none => exact Or.inr (Or.inr rfl)
      | some c =>
        cases raw with
        | true =>
          have hval : run_shell cmd task qs true ts now ⟨true, po, ls, some c⟩ w
              = Except.ok ⟨((w.index + 1) % u32Mod + (u32Mod - 1)) % u32Mod,
                  w.padding, w.out⟩ := rfl
          rw [hval] at herr
          simp at herr
        | false =>
          cases hq : qs.contains task with
          | true =>
            rw [run_shell_eq_quiet hq] at herr
            simp at herr
          | false =>
            cases po with
            | false => exact Or.inr (Or.inl ⟨rfl, rfl, rfl⟩)
            | true =>
              obtain ⟨w', hval, -⟩ := @run_shell_ok cmd task qs ts now
                ⟨true, true, ls, some c⟩ w c rfl rfl hq hlines rfl
              rw [hval] at herr
              simp at herr

/-- Witness for C2: a child that exits with the nonzero status 3 still
lets the runner complete normally. -/
theorem C2_witness :
    ∃ w', run_shell "echo hi" "build" [] false false ""
      ⟨true, true, ["hi".toList], some 3⟩ ⟨1, 0, []⟩ = Except.ok w' :=
  C2_exit_status_not_failure.2.1 "echo hi" "build" [] false false ""
    ⟨true, true, ["hi".toList], some 3⟩ ⟨1, 0, []⟩ 3 rfl
    (by
      intro l hl
      simp only [List.mem_singleton] at hl
      subst hl
      rw [sanitize_string, sanitize_not_mem (by decide)]
      simp)
    (fun _ _ => rfl) rfl

/-- Counterexample to C9: a successful non-raw, non-quiet shell step whose
child printed nothing and exited with the nonzero status 1 decrements the
counter back to 1 but prints nothing at all — there is no completion trace
line in the shell runner's output. -/
theorem C9_counterexample :
    run_shell "true" "build" [] false false "" ⟨true, true, [], some 1⟩ ⟨1, 0, []⟩
      = Except.ok ⟨1, 6, []⟩ := rfl

/-- C9 as amended: on completion the shell runner decrements the shared
counter regardless of the child's exit code, but prints no completion
trace line itself — it prints exactly one line per captured line. The
`finished <breadcrumb>` completion trace is printed by the task executor
(`cli_run_task`) after the whole step list, without any label or color
prefix. -/
theorem C9_amended_decrement_no_trace :
    (∀ cmd task qs ts now beh w c,
      beh.spawnOk = true → beh.ptyOk = true → qs.contains task = false →
      (∀ l ∈ beh.lines, sanitize_string l ≠ none) →
      beh.waitResult = some c → w.index < u32Mod →
      ∃ w', run_shell cmd task qs false ts now beh w = Except.ok w'
        ∧ w'.index = w.index
        ∧ ∃ fl, w'.out = w.out ++ fl ∧ fl.length = beh.lines.length)
    ∧ (∀ fuel tf task pfx qs r ts now env w w'',
        cli_run_task fuel tf task pfx qs r ts now env w = some (Except.ok w'') →
        ∃ w', w'' = println w'
          (if ts then now ++ " finished " ++ pfx else "finished " ++ pfx)) := by
  constructor
  · intro cmd task qs ts now beh w c hso hpo hq hlines hwr hwi
    obtain ⟨w', hw', hi, hp, fl, ho, hlen⟩ :=
      @run_shell_ok cmd task qs ts now beh w c hso hpo hq hlines hwr
    refine ⟨w', hw', ?_, fl, ho, hlen⟩
    rw [hi, inc_dec_32 hwi]
  · intro fuel tf task pfx qs r ts now env w w'' h
    cases fuel with
    | zero => simp [cli_run_task] at h
    | succ fuel =>
      simp only [cli_run_task] at h
      split at h
      · simp at h
      · split at h
        · simp at h
        · simp at h
        · rename_i w' r' hsteps
          simp only [Option.some.injEq, Except.ok.injEq] at h
          exact ⟨w', h.symm⟩
      · simp at h

/-- Witness for the amended C9: a child with one output line and nonzero
exit status 7; the counter returns to its initial value 1 and exactly one
line is printed. -/
theorem C9_amended_witness :
    ∃ w', run_shell "echo hi" "build" [] false false ""
        ⟨true, true, ["hi".toList], some 7⟩ ⟨1, 0, []⟩ = Except.ok w'
      ∧ w'.index = 1
      ∧ ∃ fl, w'.out = [] ++ fl ∧ fl.length = 1 :=
  C9_amended_decrement_no_trace.1 "echo hi" "build" [] false ""
    ⟨true, true, ["hi".toList], some 7⟩ ⟨1, 0, []⟩ 7 rfl rfl rfl
    (by
      intro l hl
      simp only [List.mem_singleton] at hl
      subst hl
      rw [sanitize_string, sanitize_not_mem (by decide)]
      simp)
    rfl (by norm_num [u32Mod])

/-- C10: a non-raw shell step of a quiet task is still spawned and waited
on — its outcome is decided by the spawn and wait results exactly as for a
loud task — but nothing is printed, the padding watermark is untouched
(so a quiet task's label width never influences the alignment of other
tasks), and the pty stream and captured lines are never consulted. -/
theorem C10_quiet_spawned_no_output :
    ∀ cmd task qs ts now beh w, qs.contains task = true →
      ((beh.spawnOk = true → ∀ c, beh.waitResult = some c → w.index < u32Mod →
          run_shell cmd task qs false ts now beh w = Except.ok w)
      ∧ (beh.spawnOk = false →
          run_shell cmd task qs false ts now beh w
            = Except.error ({ w with index := (w.index + 1) % u32Mod },
                "Failed to run task " ++ task))
      ∧ (beh.spawnOk = true → beh.waitResult = none →
          run_shell cmd task qs false ts now beh w
            = Except.error ({ w with index := (w.index + 1) % u32Mod },
                "Task " ++ task ++ " failed"))
      ∧ ∀ po2 ls2, run_shell cmd task qs false ts now
            ⟨beh.spawnOk, po2, ls2, beh.waitResult⟩ w
          = run_shell cmd task qs false ts now beh w) := by
  rintro cmd task qs ts now ⟨so, po, ls, wr⟩ w hq
  refine ⟨?_, ?_, ?_, ?_⟩
  · intro hso c hwr hwi
    simp only at hso hwr
    subst hso hwr
    rw [run_shell_eq_quiet hq, if_pos rfl]
    rw [inc_dec_32 hwi]
  · intro hso
    simp only at hso
    subst hso
    rw [run_shell_eq_quiet hq]
    rfl
  · intro hso hwr
    simp only at hso hwr
    subst hso hwr
    rw [run_shell_eq_quiet hq, if_pos rfl]
  · intro po2 ls2
    rw [run_shell_eq_quiet hq, run_shell_eq_quiet hq]

/-- Witness for C10: a quiet task with an unreadable pty stream and a line
that would make the sanitizer panic still completes, changing nothing in
the world. -/
theorem C10_witness :
    run_shell "sleep 1" "b" ["b"] false false ""
        ⟨true, false, [[escChar, '€']], some 9⟩ ⟨5, 3, ["x"]⟩
      = Except.ok ⟨5, 3, ["x"]⟩ :=
  (C10_quiet_spawned_no_output "sleep 1" "b" ["b"] false ""
    ⟨true, false, [[escChar, '€']], some 9⟩ ⟨5, 3, ["x"]⟩ rfl).1
    rfl 9 rfl (by norm_num [u32Mod])

/-! ### Claim theorems about the task executor -/

/-- Splitting a parallel branch list: once the branches of a prefix have
all completed, the remaining branches start from the world the prefix
produced but from the original raw flag. -/
theorem runParallel_append {fuel : Nat} {tf : TaskFile} {bs1 bs2 : List Step}
    {pfx name : String} {qs : List String} {r ts : Bool} {now : String}
    {env : String → ChildBehavior} {w w' : World}
    (h : runParallel fuel tf bs1 pfx name qs r ts now env w
      = some (Except.ok w')) :
    runParallel fuel tf (bs1 ++ bs2) pfx name qs r ts now env w
      = runParallel (fuel - bs1.length) tf bs2 pfx name qs r ts now env w' := by
  induction bs1 generalizing fuel w with
  | nil =>
    cases fuel with
    | zero => simp [runParallel] at h
    | succ fuel =>
      simp only [runParallel, Option.some.injEq, Except.ok.injEq] at h
      subst h
      simp
  | cons b bs1' ih =>
    cases fuel with
    | zero => simp [runParallel] at h
    | succ fuel =>
      simp only [runParallel, List.cons_append] at h ⊢
      match hb : run_task fuel tf b pfx name qs r ts now env w with
      | none => rw [hb] at h; simp at h
      | some (.error e) => rw [hb] at h; simp at h
      | some (.ok (w1, r1)) =>
        simp only [hb] at h ⊢
        rw [ih h]
        rw [show fuel + 1 - (b :: bs1').length = fuel - bs1'.length from by
          simp only [List.length_cons]; omega]

/-- Counterexample to C1: running the task `main` of `tfC1` — a parallel
group whose second branch references a missing task — terminates the whole
process with the branch's fatal error. The third branch's entry trace
`> main > ok2` never appears in the output: the sibling did not run to
completion, and no per-step fatal outcome was produced after a join. -/
theorem C1_counterexample :
    cli_run_task 10 tfC1 "main" "main" [] false false ""
        (fun _ => ⟨true, true, [], some 0⟩) ⟨1, 0, []⟩
      = some (Except.error
          (⟨1, 0, ["> main", "> main > ok1", "finished main > ok1", "> main > nope"]⟩,
           "Task nope not found in Pilotfile"))
    ∧ "> main > ok2" ∉
        ["> main", "> main > ok1", "finished main > ok1", "> main > nope"] :=
  ⟨rfl, by decide⟩

/-- C1 as amended: a fatal error inside one branch of a parallel step
terminates the process immediately (`exit(1)`). In the linearized
schedule, once the branches before the failing one have completed and the
failing branch raises its fatal error, the parallel step's result is that
error, and the branches after the failing one are never consulted — the
result is the same whatever they are. No join and no per-step fatal
reporting happen. -/
theorem C1_amended_branch_failure_aborts :
    ∀ (fuel : Nat) (tf : TaskFile) (bs1 : List Step) (b : Step)
      (bs2 : List Step) (pfx name : String) (qs : List String) (r ts : Bool)
      (now : String) (env : String → ChildBehavior) (w w' : World)
      (e : World × String),
      runParallel fuel tf bs1 pfx name qs r ts now env w
        = some (Except.ok w') →
      run_task (fuel - bs1.length - 1) tf b pfx name qs r ts now env w'
        = some (Except.error e) →
      runParallel fuel tf (bs1 ++ b :: bs2) pfx name qs r ts now env w
        = some (Except.error e) := by
  intro fuel tf bs1 b bs2 pfx name qs r ts now env w w' e h1 h2
  rw [runParallel_append h1]
  cases hf : fuel - bs1.length with
  | zero =>
    rw [show fuel - bs1.length - 1 = 0 from by omega] at h2
    simp [run_task] at h2
  | succ g =>
    rw [show fuel - bs1.length - 1 = g from by omega] at h2
    simp [runParallel, h2]

/-- Witness for the amended C1, on the concrete task file `tfC1`: the
first branch completes, the missing-task branch fails, and the parallel
step's result is that fatal error with the third branch never running. -/
theorem C1_amended_witness :
    runParallel 7 tfC1 [Step.task "ok1", Step.task "nope", Step.task "ok2"]
        "main" "main" [] false false "" (fun _ => ⟨true, true, [], some 0⟩)
        ⟨1, 0, ["> main"]⟩
      = some (Except.error
          (⟨1, 0, ["> main", "> main > ok1", "finished main > ok1", "> main > nope"]⟩,
           "Task nope not found in Pilotfile")) :=
  C1_amended_branch_failure_aborts 7 tfC1 [Step.task "ok1"] (Step.task "nope")
    [Step.task "ok2"] "main" "main" [] false false ""
    (fun _ => ⟨true, true, [], some 0⟩) ⟨1, 0, ["> main"]⟩
    ⟨1, 0, ["> main", "> main > ok1", "finished main > ok1"]⟩
    (⟨1, 0, ["> main", "> main > ok1", "finished main > ok1", "> main > nope"]⟩,
     "Task nope not found in Pilotfile")
    rfl rfl

/-- C8: the raw flag is copied by value at every fork. A step hands back
to its enclosing sequential list exactly `rawAfter`: a `raw` step replaces
the flag, and every other step — in particular a parallel group or a task
reference whose inside executed arbitrary `raw` steps on its own copies —
returns the caller's flag unchanged. Consequently a `raw` step changes the
flag exactly for the remaining steps of its own sequential list, and a
`raw` step occurring as a parallel branch leaves the flag of the remaining
sibling branches (and of the parent) untouched. -/
theorem C8_raw_copied_by_value :
    (∀ (fuel : Nat) (tf : TaskFile) (s : Step) (pfx name : String)
      (qs : List String) (r ts : Bool) (now : String)
      (env : String → ChildBehavior) (w w' : World) (r' : Bool),
      run_task fuel tf s pfx name qs r ts now env w
        = some (Except.ok (w', r')) →
      r' = rawAfter s r)
    ∧ (∀ (fuel : Nat) (tf : TaskFile) (v : Bool) (rest : List Step)
        (pfx name : String) (qs : List String) (r ts : Bool) (now : String)
        (env : String → ChildBehavior) (w : World),
        runSteps (fuel + 2) tf (Step.raw v :: rest) pfx name qs r ts now env w
          = runSteps (fuel + 1) tf rest pfx name qs v ts now env w)
    ∧ (∀ (fuel : Nat) (tf : TaskFile) (v : Bool) (rest : List Step)
        (pfx name : String) (qs : List String) (r ts : Bool) (now : String)
        (env : String → ChildBehavior) (w : World),
        runParallel (fuel + 2) tf (Step.raw v :: rest) pfx name qs r ts now env w
          = runParallel (fuel + 1) tf rest pfx name qs r ts now env w) := by
  refine ⟨?_, ?_, ?_⟩
  · intro fuel tf s pfx name qs r ts now env w w' r' h
    cases fuel with
    | zero => simp [run_task] at h
    | succ fuel =>
      cases s with
      | shell cmd =>
        simp only [run_task] at h
        split at h
        · simp only [Option.some.injEq, Except.ok.injEq, Prod.mk.injEq] at h
          exact h.2.symm
        · simp at h
      | task sub =>
        simp only [run_task] at h
        split at h
        · simp at h
        · simp only [Option.some.injEq, Except.ok.injEq, Prod.mk.injEq] at h
          exact h.2.symm
        · simp at h
      | parallel bs =>
        simp only [run_task] at h
        split at h
        · simp at h
        · simp only [Option.some.injEq, Except.ok.injEq, Prod.mk.injEq] at h
          exact h.2.symm
        · simp at h
      | raw v =>
        simp only [run_task, Option.some.injEq, Except.ok.injEq,
          Prod.mk.injEq] at h
        exact h.2.symm
      | description d =>
        simp only [run_task, Option.some.injEq, Except.ok.injEq,
          Prod.mk.injEq] at h
        exact h.2.symm
      | unknown u => simp [run_task] at h
  · intro fuel tf v rest pfx name qs r ts now env w
    rfl
  · intro fuel tf v rest pfx name qs r ts now env w
    rfl

/-- Witness for C8: a parallel group whose single branch is a `raw true`
step completes and hands the caller's `raw = false` back unchanged. -/
theorem C8_witness :
    false = rawAfter (Step.parallel [Step.raw true]) false :=
  C8_raw_copied_by_value.1 3 [] (Step.parallel [Step.raw true]) "p" "n" []
    false false "" (fun _ => ⟨true, true, [], some 0⟩) ⟨1, 0, []⟩ ⟨1, 0, []⟩
    false rfl

end Pilot

